import Mathlib

/-!
# Verification of the octant track-matching and density engine

Shallow embedding of `src/octant/core.py` (class `TrackRun`) and the parts of
`src/octant/misc.py` it uses.  Positions, times and thresholds are rationals;
times are measured in hours, so the Python divisions by `HOUR` (which convert
numpy timedeltas to hours) become the identity and are dropped.

Functions imported by `core.py` from modules that are not part of the source
tree (`octant.utils.great_circle`, `octant.utils.distance_metric`, the cython
density kernels, `octant.grid`, `octant.params`) are modelled from the spec,
as noted on each definition.
-/

namespace Octant

/-- Modelled from the spec: `octant.params.KM2M`, kilometre-to-metre factor. -/
def KM2M : ℚ := 1000

/-- Modelled from the spec: `octant.params.FILLVAL`, the large finite sentinel
for "not computed" distances (spec 3: "absence of a meaningful value is
represented by a sentinel ... never silently treated as zero"). -/
def FILLVAL : ℚ := (10 : ℚ) ^ 20

/-- A single track record: longitude and latitude in degrees, time in hours.
Mirrors one row of `TrackRun.data` (only the columns the core algorithms
read: `lon`, `lat`, `time`).  The calendar month and day of the timestamp
(`time.dt.month`, `time.dt.day`), used by the genesis/lysis exclusion
filters, are carried as explicit fields. -/
structure Rec where
  lon : ℚ
  lat : ℚ
  time : ℚ
  month : ℕ := 0
  day : ℕ := 0
  deriving Repr, DecidableEq

instance : Inhabited Rec := ⟨{ lon := 0, lat := 0, time := 0 }⟩

/-- One row of `TrackRun.data`: the two MultiIndex levels
`(track_idx, row_idx)` together with the record. -/
abbrev Row := (ℕ × ℕ) × Rec

/-- Track id (level 0 of the MultiIndex) of a data row. -/
def Row.tid (r : Row) : ℕ := r.1.1

/-- The category table `TrackRun.cats`: a DataFrame with track ids as index,
one boolean column per category label.  `rows` holds, per track id, the flag
list aligned with `labels`. -/
structure Cats where
  labels : List String
  rows : List (ℕ × List Bool)
  deriving Repr, DecidableEq

/-- The flag of category `l` for a row of the `cats` table
(`cats[l][tid]`); `false` when the label or id is absent. -/
def Cats.flag (c : Cats) (flags : List Bool) (l : String) : Bool :=
  match (c.labels.zip flags).lookup l with
  | some b => b
  | none => false

/-- Tracking configuration (`TrackRun.conf`): a record of named optional
settings, enough to express the field-wise merge done by `extend`. -/
abbrev Conf := List (String × Option ℚ)

/-- State of a `TrackRun` object: the fields of `core.TrackRun` that the
algorithms under verification read or write. -/
structure TrackRun where
  data : List Row
  cats : Option Cats
  is_categorised : Bool
  is_cat_inclusive : Bool
  tstep_h : Option ℚ
  sources : List String
  conf : Option Conf
  deriving Repr, DecidableEq

/-- A freshly constructed `TrackRun()` (the `__init__` defaults). -/
def TrackRun.empty : TrackRun :=
  { data := [], cats := none, is_categorised := false, is_cat_inclusive := false,
    tstep_h := none, sources := [], conf := none }

/-- Insert a natural number into a sorted list (ascending). -/
def insertNat (x : ℕ) : List ℕ → List ℕ
  | [] => [x]
  | y :: ys => if x ≤ y then x :: y :: ys else y :: insertNat x ys

/-- Insertion sort on naturals (ascending); models pandas' sorted group keys. -/
def sortNat : List ℕ → List ℕ
  | [] => []
  | x :: xs => insertNat x (sortNat xs)

/-- Distinct track ids of a data frame, in ascending order
(`groupby` keys; pandas sorts group keys by default). -/
def trackIds (d : List Row) : List ℕ :=
  sortNat (d.map Row.tid).dedup

/-- `TrackRun.__len__` / `DataFrame` group count: the number of distinct
track ids (`index.get_level_values(0).nunique()`). -/
def trSize (tr : TrackRun) : ℕ := (tr.data.map Row.tid).dedup.length

/-- `data.gb`: group the rows by track id; groups are enumerated in ascending
id order, each group keeping the original row order, and each group is
non-empty by construction. -/
def groupTracks (d : List Row) : List (ℕ × List Rec) :=
  (trackIds d).map fun i => (i, d.filterMap fun r => if r.tid = i then some r.2 else none)

/-- The subset argument of `TrackRun.__getitem__`: `slice(None)`/`None`/`"all"`
collapse to `.all`; a plain string label is `.one`, a list of labels `.many`. -/
inductive SubsetArg where
  | all : SubsetArg
  | one : String → SubsetArg
  | many : List String → SubsetArg
  deriving Repr, DecidableEq

/-- The test `subset in [slice(None), None, "all"]` of `__getitem__`
(a one-element list `["all"]` does *not* pass this test in the source). -/
def SubsetArg.isAll : SubsetArg → Bool
  | .all => true
  | .one s => s = "all"
  | .many _ => false

/-- Errors raised by `TrackRun.__getitem__`. -/
inductive SelErr where
  | selectError : String → SelErr
  | notCategorised : SelErr
  | attrError : SelErr
  deriving Repr, DecidableEq

/-- The label list `subsets` of `__getitem__`: a single label becomes a
one-element list. -/
def SubsetArg.labels : SubsetArg → List String
  | .all => []
  | .one s => [s]
  | .many ss => ss

/-- The fold `selected &= self.cats[label]` of `__getitem__`, raising
`SelectError` at the first label that is not a column of `cats`.  Returns the
per-row conjunction of the selected boolean columns. -/
def selectFlags (c : Cats) : List String → Except SelErr (List (ℕ × Bool))
  | [] => .ok (c.rows.map fun (i, _) => (i, true))
  | l :: ls =>
    if l ∈ c.labels then
      match selectFlags c ls with
      | .ok rest => .ok ((c.rows.zip rest).map fun ((i, fl), (_, b)) => (i, c.flag fl l && b))
      | .error e => .error e
    else
      .error (.selectError l)

/-- `TrackRun.__getitem__`: no label (or an empty run) yields all data;
otherwise, on a categorised run, the rows of the tracks whose flags are true
for every requested label (`self.data.loc[idx, :]`), and `SelectError` for an
unknown label; on an uncategorised run, `NotCategorisedError`. -/
def getitem (tr : TrackRun) (s : SubsetArg) : Except SelErr (List Row) :=
  if s.isAll || trSize tr == 0 then .ok tr.data
  else if tr.is_categorised then
    match tr.cats with
    | none => .error .attrError
    | some c =>
      match selectFlags c s.labels with
      | .error e => .error e
      | .ok sel =>
        let idx := (sel.filter fun p => p.2).map Prod.fst
        .ok (idx.flatMap fun i => tr.data.filter fun r => r.tid == i)
  else .error .notCategorised

/-- The run-length re-indexing
`new_track_idx.ne(new_track_idx.shift()).cumsum() - 1` applied by `extend`:
each maximal run of equal consecutive ids is renumbered `0, 1, 2, ...`.
`prev` is the previous id, `cur` the index assigned to it. -/
def runIndexAux (prev : ℕ) (cur : ℕ) : List ℕ → List ℕ
  | [] => []
  | x :: xs =>
    if x = prev then cur :: runIndexAux x cur xs
    else (cur + 1) :: runIndexAux x (cur + 1) xs

/-- Run-length re-indexing of a full id column (first row always maps to 0,
since `shift()` yields NaN there and `ne` is true). -/
def runIndex : List ℕ → List ℕ
  | [] => []
  | x :: xs => 0 :: runIndexAux x 0 xs

/-- Re-index the level-0 ids of concatenated data
(`new_data.set_index(mux)` in `extend`): level 1 and the records are kept. -/
def reindexData (d : List Row) : List Row :=
  ((runIndex (d.map Row.tid)).zip d).map fun (k, r) => ((k, r.1.2), r.2)

/-- `pd.concat([self.cats, other.cats], sort=False).fillna(False)`:
column union in order of first appearance, rows of `a` then rows of `b`,
missing flags filled with `false`.  `pd.concat` skips `None` inputs. -/
def concatCats (a b : Option Cats) : Cats :=
  let ca := a.getD { labels := [], rows := [] }
  let cb := b.getD { labels := [], rows := [] }
  let labels := ca.labels ++ cb.labels.filter (fun l => ¬ l ∈ ca.labels)
  { labels := labels,
    rows := (ca.rows.map fun (i, fl) => (i, labels.map fun l => ca.flag fl l)) ++
            (cb.rows.map fun (i, fl) => (i, labels.map fun l => cb.flag fl l)) }

/-- Re-index the ids of a concatenated category table
(`new_cats.set_index(ix)` in `extend`). -/
def reindexCats (c : Cats) : Cats :=
  { labels := c.labels,
    rows := ((runIndex (c.rows.map Prod.fst)).zip c.rows).map fun (k, r) => (k, r.2) }

/-- The `adapt_conf` merge of `extend`: keep the fields on which both
configurations agree, set the others to `None`. -/
def mergeConf (c1 c2 : Conf) : Conf :=
  c1.map fun (f, v) => if c2.lookup f = some v then (f, v) else (f, none)

/-- `TrackRun.extend`, with the mutation of `self` made explicit: the result
is the updated state, and a raised `ConcatenationError` carries the state of
`self` at the moment of the raise (Python leaves earlier attribute writes in
place when an exception propagates). -/
def extend (a other : TrackRun) (adapt_conf : Bool := true) :
    Except (String × TrackRun) TrackRun := do
  -- Check if category metadata match
  let a1 ←
    if 0 < trSize a ∧ 0 < trSize other then
      if a.is_cat_inclusive ≠ other.is_cat_inclusive then
        throw ("Categorisation metadata is different for is_cat_inclusive", a)
      else if a.is_categorised ≠ other.is_categorised then
        throw ("Categorisation metadata is different for is_categorised", a)
      else pure a
    else if 0 < trSize other then
      pure { a with is_cat_inclusive := other.is_cat_inclusive,
                    is_categorised := other.is_categorised }
    else pure a
  -- Time-step consistency
  let a2 ←
    match a1.tstep_h with
    | none => pure { a1 with tstep_h := other.tstep_h }
    | some t =>
      match other.tstep_h with
      | some t' =>
        if t ≠ t' then
          throw ("Extending by a TrackRun with different timestep is not allowed", a1)
        else pure a1
      | none => pure a1
  -- Merge configurations
  let a3 :=
    if adapt_conf ∧ other.conf.isSome then
      match a2.conf, other.conf with
      | none, oc => { a2 with conf := oc }
      | some c, some oc => { a2 with conf := some (mergeConf c oc) }
      | some c, none => { a2 with conf := some c }
    else a2
  let a4 := { a3 with sources := a3.sources ++ other.sources }
  -- Concatenate and re-index the data
  let a5 := { a4 with data := reindexData (a4.data ++ other.data) }
  -- Concatenate categories
  let a6 :=
    if a5.cats.isSome ∨ other.cats.isSome then
      { a5 with cats := some (reindexCats (concatCats a5.cats other.cats)) }
    else a5
  return a6

/-- `TrackRun.__add__`: a fresh run extended by `self`, then by `other`. -/
def addTR (a b : TrackRun) : Except (String × TrackRun) TrackRun := do
  let n1 ← extend TrackRun.empty a
  extend n1 b

/-! ## Track matcher (`TrackRun.match_tracks`) -/

/-- Group the rows by track id, keeping the full rows. -/
def groupRows (d : List Row) : List (ℕ × List Row) :=
  (trackIds d).map fun i => (i, d.filter fun r => r.tid == i)

/-- First timestamp of a track (`df.time.values[0]`). -/
def headTime (df : List Rec) : ℚ := ((df.map Rec.time).headD 0)

/-- Last timestamp of a track (`df.time.values[-1]`). -/
def lastTime (df : List Rec) : ℚ := ((df.map Rec.time).getLastD 0)

/-- Linear interpolation of `(time, value)` samples at time `t`, as performed
by `pandas.DataFrame.interpolate(method="values")` followed by forward
filling: exact at sample times, linear between consecutive samples, clamped
to the last value beyond the final sample.  (Times before the first sample
never reach this function: those rows stay NaN and are dropped.) -/
def interp1 : List (ℚ × ℚ) → ℚ → ℚ
  | [], _ => 0
  | [(_, v0)], _ => v0
  | (t0, v0) :: (t1, v1) :: rest, t =>
    if t ≤ t0 then v0
    else if t ≤ t1 then v0 + (v1 - v0) * (t - t0) / (t1 - t0)
    else interp1 ((t1, v1) :: rest) t

/-- Interpolated `(lon, lat)` of track `df1` at time `t`. -/
def interpPos (df1 : List Rec) (t : ℚ) : ℚ × ℚ :=
  (interp1 (df1.map fun r => (r.time, r.lon)) t,
   interp1 (df1.map fun r => (r.time, r.lat)) t)

/-- The frame `new_df1` of the `simple` method: `df1`'s positions aligned to
`df2`'s times.  Rows of `df2` whose time precedes `df1`'s start remain NaN
after forward interpolation and are dropped
(`new_df1[~new_df1.lon.isnull()]`); a `df2` time that also occurs in `df1`
yields two identical rows, because `.loc[tmp_df2.time]` returns every row
carrying that duplicated index label (the original `df1` row and the filled
placeholder row agree in value). -/
def newDF1 (df1 df2 : List Rec) : List (ℚ × ℚ) :=
  df2.flatMap fun r =>
    if r.time < headTime df1 then []
    else
      let v := interpPos df1 r.time
      if (df1.map Rec.time).contains r.time then [v, v] else [v]

/-- The `dist_diff` array of the `simple` method: initialised to `FILLVAL`
with length `new_df1.shape[0]`, then overwritten pairwise along
`zip(new_df1[ll].values, df2[ll].values)` (which stops at the shorter of the
two) with `great_circle(x1, x2, y1, y2)`.  `gc` stands for
`octant.utils.great_circle` (not part of the source tree), taking
`(lon1, lon2, lat1, lat2)`. -/
def distDiff (gc : ℚ → ℚ → ℚ → ℚ → ℚ) (df1 df2 : List Rec) : List ℚ :=
  let nd := newDF1 df1 df2
  (List.range nd.length).map fun k =>
    match nd[k]?, df2[k]? with
    | some (x1, y1), some r2 => gc x1 r2.lon y1 r2.lat
    | _, _ => FILLVAL

/-- `within_r_idx.sum()`: the number of aligned samples whose distance is
below `thresh_dist * KM2M`. -/
def wCount (gc : ℚ → ℚ → ℚ → ℚ → ℚ) (threshDist : ℚ) (df1 df2 : List Rec) : ℕ :=
  ((distDiff gc df1 df2).filter fun d => d < threshDist * KM2M).length

/-- The `interpolate_to` flag of `match_tracks` (the source only defines
behaviour for the strings `"other"` and `"self"`). -/
inductive InterpTo where
  | toOther : InterpTo
  | toSelf : InterpTo
  deriving Repr, DecidableEq

/-- The candidate list built by the `simple` method for one other-track
`oct`: a self track enters with its within-radius count when the overlap of
the two time spans is positive (`(e_end - l_start) / HOUR > 0`) and the count
exceeds `time_frac * df2.shape[0]`. -/
def candidatesFor (gc : ℚ → ℚ → ℚ → ℚ → ℚ) (interpTo : InterpTo)
    (threshDist timeFrac : ℚ) (subG : List (ℕ × List Rec)) (oct : List Rec) :
    List (ℕ × ℕ) :=
  subG.filterMap fun p =>
    let dfs := match interpTo with
      | .toOther => (p.2, oct)
      | .toSelf => (oct, p.2)
    let lStart := max (headTime dfs.1) (headTime dfs.2)
    let eEnd := min (lastTime dfs.1) (lastTime dfs.2)
    if lStart < eEnd then
      let cnt := wCount gc threshDist dfs.1 dfs.2
      if timeFrac * dfs.2.length < (cnt : ℚ) then some (p.1, cnt) else none
    else none

/-- Stable insertion of a `(track id, count)` pair into a list sorted by
ascending count: the new (originally earlier) element is placed before every
element of equal count. -/
def insertCnt (x : ℕ × ℕ) : List (ℕ × ℕ) → List (ℕ × ℕ)
  | [] => [x]
  | y :: ys => if x.2 ≤ y.2 then x :: y :: ys else y :: insertCnt x ys

/-- Stable sort by ascending count, modelling
`sorted(candidates, key=lambda x: x[1])` (Python's sort is stable). -/
def ssort : List (ℕ × ℕ) → List (ℕ × ℕ)
  | [] => []
  | x :: xs => insertCnt x (ssort xs)

/-- The `simple` matching method: for every other-track with a non-empty
candidate list, emit the pair `(candidates[-1][0], other_idx)` after the
stable sort by count. -/
def matchSimple (gc : ℚ → ℚ → ℚ → ℚ → ℚ) (interpTo : InterpTo)
    (threshDist timeFrac : ℚ) (subG otherG : List (ℕ × List Rec)) :
    List (ℕ × ℕ) :=
  otherG.filterMap fun q =>
    let cands := candidatesFor gc interpTo threshDist timeFrac subG q.2
    if cands.isEmpty then none
    else some (((ssort cands).getLastD (0, 0)).1, q.1)

/-- `pd.merge(other_ot, ot, how="inner", on="time")`: the exactly
time-aligned record pairs, left (other) record first, in left order. -/
def alignedPairs (oot ot : List Rec) : List (Rec × Rec) :=
  oot.flatMap fun o => (ot.filter fun s => s.time == o.time).map fun s => (o, s)

/-- `intersect.time.diff().values[-1]`: the difference of the last two
aligned times; `none` models the NaN produced when fewer than two rows exist
(NaN comparisons are false). -/
def lastTwoDiff (l : List ℚ) : Option ℚ :=
  match l.reverse with
  | a :: b :: _ => some (a - b)
  | _ => none

/-- The qualification test of the `intersection` method for a self track
`ot` against an other-track `oot`. -/
def interQ (gc : ℚ → ℚ → ℚ → ℚ → ℚ) (threshDist timeFrac : ℚ)
    (ot oot : List Rec) : Bool :=
  let times := oot.map Rec.time
  let timeMatchThresh := timeFrac * (times.getLastD 0 - times.headD 0)
  let inter := alignedPairs oot ot
  if 0 < inter.length then
    match lastTwoDiff (inter.map fun p => p.1.time) with
    | some dt =>
      let dists := inter.map fun p => gc p.1.lon p.2.lon p.1.lat p.2.lat
      let proxTime := ((dists.filter fun d => d < threshDist * KM2M).length : ℚ) * dt
      decide ((inter.length : ℚ) * dt > timeMatchThresh ∧ proxTime > timeMatchThresh)
    | none => false
  else false

/-- The `intersection` matching method: each self track is paired with the
first other-track that qualifies (`break` after the append). -/
def matchIntersection (gc : ℚ → ℚ → ℚ → ℚ → ℚ) (threshDist timeFrac : ℚ)
    (subG otherG : List (ℕ × List Rec)) : List (ℕ × ℕ) :=
  subG.filterMap fun p =>
    match otherG.find? (fun q => interQ gc threshDist timeFrac p.2 q.2) with
    | some q => some (p.1, q.1)
    | none => none

/-- `np.nanargmin`: index of the first minimal entry (0 on the empty list;
the matrix contains no NaN because every entry is overwritten). -/
def argminIdx : List ℚ → ℕ
  | [] => 0
  | [_] => 0
  | x :: y :: ys =>
    let k := argminIdx (y :: ys)
    if (y :: ys).getD k 0 < x then k + 1 else 0

/-- Column `i` of a row-major matrix. -/
def colOf (m : List (List ℚ)) (i : ℕ) : List ℚ := m.map fun row => row.getD i 0

/-- The mutual-argmin pair extraction of the `bs2000` method: `i` enumerates
`np.nanargmin(dist_matrix, axis=0)` (one entry per column), `j` enumerates
`np.nanargmin(dist_matrix, axis=1)` (one entry per row); a pair
`(sub_indices[idx1], other_indices[idx2])` is appended whenever `i == idx2`
and `j == idx1`. -/
def bs2000Pairs (subIdx otherIdx : List ℕ) (m : List (List ℚ)) : List (ℕ × ℕ) :=
  (List.range otherIdx.length).flatMap fun i =>
    (List.range subIdx.length).filterMap fun j =>
      let idx1 := argminIdx (colOf m i)
      let idx2 := argminIdx (m.getD j [])
      if i = idx2 ∧ j = idx1 then
        some (subIdx.getD idx1 0, otherIdx.getD idx2 0)
      else none

/-- The full `bs2000` distance matrix, one row per self track, one column per
other track.  `dm` stands for `octant.utils.distance_metric` (not part of
the source tree; `beta` and `r_planet` are captured in it). -/
def distMatrix (dm : List Rec → List Rec → ℚ) (subG otherG : List (ℕ × List Rec)) :
    List (List ℚ) :=
  subG.map fun p => otherG.map fun q => dm p.2 q.2

/-- The `others` argument of `match_tracks`: a list of track tables, another
`TrackRun`, or a value of a wrong type (carrying its `len()`). -/
inductive Others where
  | dfs : List (List Rec) → Others
  | run : TrackRun → Others
  | bad : ℕ → Others
  deriving Repr

/-- `len(others)`. -/
def othersLen : Others → ℕ
  | .dfs l => l.length
  | .run o => trSize o
  | .bad n => n

/-- Errors raised by `match_tracks`. -/
inductive MatchErr where
  | sel : SelErr → MatchErr
  | arg : String → MatchErr
  deriving Repr, DecidableEq

/-- The value returned by `match_tracks`: a pair list (with the distance
matrix when `return_dist_matrix` is set for `bs2000`), or a mapping from
category label to sub-result when the call dispatches over categories. -/
inductive MatchOut where
  | single : List (ℕ × ℕ) → Option (List (List ℚ)) → MatchOut
  | byCat : List (String × MatchOut) → MatchOut
  deriving Repr

/-- `self.cat_labels` (`[]` when `cats` is `None`). -/
def catLabels (tr : TrackRun) : List String := (tr.cats.map Cats.labels).getD []

/-- Group list for the `others` argument: a list of tables is concatenated
with `keys=range(len(others))` and grouped (empty tables produce no group);
another `TrackRun` is subset with the same `subset` argument and grouped;
anything else raises `ArgumentError`. -/
def otherGroups (others : Others) (s : SubsetArg) : Except MatchErr (List (ℕ × List Rec)) :=
  match others with
  | .dfs l => .ok ((l.enum.filter fun p => ¬ p.2.isEmpty))
  | .run o =>
    match getitem o s with
    | .ok d => .ok (groupTracks d)
    | .error e => .error (.sel e)
  | .bad _ => .error (.arg "Argument others has a wrong type")

/-- The body of `match_tracks` once a concrete subset is fixed: subset
selection, the early empty return, validation of `others`, then the method
dispatch. -/
def matchOne (gc : ℚ → ℚ → ℚ → ℚ → ℚ) (dm : List Rec → List Rec → ℚ)
    (tr : TrackRun) (others : Others) (s : SubsetArg) (method : String)
    (interpTo : InterpTo) (threshDist timeFrac : ℚ) (returnDM : Bool) :
    Except MatchErr MatchOut := do
  let subD ← (getitem tr s).mapError MatchErr.sel
  let subG := groupTracks subD
  if subG.length == 0 || othersLen others == 0 then
    return .single [] none
  let otherG ← otherGroups others s
  if method == "intersection" then
    return .single (matchIntersection gc threshDist timeFrac subG otherG) none
  else if method == "simple" then
    return .single (matchSimple gc interpTo threshDist timeFrac subG otherG) none
  else if method == "bs2000" then
    let dmx := distMatrix dm subG otherG
    let pairs := bs2000Pairs (subG.map Prod.fst) (otherG.map Prod.fst) dmx
    if returnDM then return .single pairs (some dmx)
    else return .single pairs none
  else
    throw (.arg ("Unknown method: " ++ method))

/-- `TrackRun.match_tracks`: with no subset on a categorised run, one
recursive call per category label collected into a label-keyed mapping;
with no subset on an uncategorised run, `subset` defaults to `"all"`. -/
def matchTracks (gc : ℚ → ℚ → ℚ → ℚ → ℚ) (dm : List Rec → List Rec → ℚ)
    (tr : TrackRun) (others : Others) (subset : Option SubsetArg) (method : String)
    (interpTo : InterpTo) (threshDist timeFrac : ℚ) (returnDM : Bool) :
    Except MatchErr MatchOut :=
  match subset with
  | none =>
    if tr.is_categorised then do
      let entries ← (catLabels tr).mapM fun l => do
        let r ← matchOne gc dm tr others (.one l) method interpTo threshDist timeFrac returnDM
        pure (l, r)
      pure (.byCat entries)
    else
      matchOne gc dm tr others .all method interpTo threshDist timeFrac returnDM
  | some s => matchOne gc dm tr others s method interpTo threshDist timeFrac returnDM

/-! ## Grid density engine (`TrackRun.density`) -/

/-- Modelled from the spec: `octant.grid.cell_centres` (not part of the
source tree): midpoints of consecutive coordinates. -/
def cellCentres (xs : List ℚ) : List ℚ :=
  (xs.zip xs.tail).map fun p => (p.1 + p.2) / 2

/-- Second-to-last element (0 on short lists). -/
def penult (xs : List ℚ) : ℚ :=
  match xs.reverse with
  | _ :: b :: _ => b
  | _ => 0

/-- Modelled from the spec: `octant.grid.cell_bounds` (not part of the source
tree): the N+1 dual coordinates of N centres, by midpoint interpolation with
linear extrapolation at the two ends. -/
def cellBounds (xs : List ℚ) : List ℚ :=
  if xs.length < 2 then xs
  else (xs.headD 0 - (xs.getD 1 0 - xs.headD 0) / 2) ::
       (cellCentres xs ++ [xs.getLastD 0 + (xs.getLastD 0 - penult xs) / 2])

/-- `(np.diff(v) < 0).any()`: some adjacent difference is negative. -/
def hasNegDiff (xs : List ℚ) : Bool :=
  (xs.zip xs.tail).any fun p => p.2 - p.1 < 0

/-- Membership of a point in the 2-D bin between boundaries `i` and `i+1`
(latitude) and `j` and `j+1` (longitude). -/
def inCell (lonB latB : List ℚ) (i j : ℕ) (x y : ℚ) : Bool :=
  decide (latB.getD i 0 ≤ y ∧ y < latB.getD (i + 1) 0 ∧
          lonB.getD j 0 ≤ x ∧ x < lonB.getD (j + 1) 0)

/-- Modelled from the spec: `octant.utils.point_density_cell` (not part of
the source tree): each selected point increments the occupancy count of the
2-D bin containing it. -/
def pointDensityCell (lonB latB : List ℚ) (pts : List (ℚ × ℚ)) : List (List ℚ) :=
  (List.range (latB.length - 1)).map fun i =>
    (List.range (lonB.length - 1)).map fun j =>
      ((pts.filter fun p => inCell lonB latB i j p.1 p.2).length : ℚ)

/-- Modelled from the spec: `octant.utils.track_density_cell` (not part of
the source tree): a track increments a given cell at most once, counting
distinct track ids per bin. -/
def trackDensityCell (lonB latB : List ℚ) (pts : List (ℕ × ℚ × ℚ)) : List (List ℚ) :=
  (List.range (latB.length - 1)).map fun i =>
    (List.range (lonB.length - 1)).map fun j =>
      (((pts.filter fun p => inCell lonB latB i j p.2.1 p.2.2).map Prod.fst).dedup.length : ℚ)

/-- Modelled from the spec: `octant.utils.point_density_rad` (not part of the
source tree): for every grid node, the number of selected points within
`dist` metres great-circle distance. -/
def pointDensityRad (gc : ℚ → ℚ → ℚ → ℚ → ℚ) (distM : ℚ)
    (lonB latB : List ℚ) (pts : List (ℚ × ℚ)) : List (List ℚ) :=
  latB.map fun y0 => lonB.map fun x0 =>
    ((pts.filter fun p => gc x0 p.1 y0 p.2 < distM).length : ℚ)

/-- Modelled from the spec: `octant.utils.track_density_rad` (not part of the
source tree): distinct tracks with a point within `dist` metres of the node. -/
def trackDensityRad (gc : ℚ → ℚ → ℚ → ℚ → ℚ) (distM : ℚ)
    (lonB latB : List ℚ) (pts : List (ℕ × ℚ × ℚ)) : List (List ℚ) :=
  latB.map fun y0 => lonB.map fun x0 =>
    (((pts.filter fun p => gc x0 p.2.1 y0 p.2.2 < distM).map Prod.fst).dedup.length : ℚ)

/-- `octant.misc._exclude_by_first_day` applied to one track: true when the
track does not start on the excluded (month, day). -/
def exByFirstDay (recs : List Rec) (m d : ℕ) : Bool :=
  ¬ ((recs.headD default).month = m ∧ (recs.headD default).day = d)

/-- `octant.misc._exclude_by_last_day` applied to one track: true when the
track does not end on the excluded (month, day). -/
def exByLastDay (recs : List Rec) (m d : ℕ) : Bool :=
  ¬ ((recs.getLastD default).month = m ∧ (recs.getLastD default).day = d)

/-- `by="genesis"` selection: drop tracks starting on the excluded
(month, day), then keep the rows with `row_idx = 0`. -/
def genesisRows (subD : List Row) (m d : ℕ) : List Row :=
  let kept := (groupRows subD).filter fun p => exByFirstDay (p.2.map Prod.snd) m d
  (kept.flatMap Prod.snd).filter fun r => r.1.2 == 0

/-- `by="lysis"` selection: the last row of every track
(`gb.tail(1)`), dropping those ending on the excluded (month, day). -/
def lysisRows (subD : List Row) (m d : ℕ) : List Row :=
  ((groupRows subD).filterMap fun p => p.2.getLast?).filter
    fun r => exByLastDay [r.2] m d

/-- Errors raised by `density`: selection errors from `__getitem__`, the
grid-validity error, the argument error for an unknown `by`, and the
`UnboundLocalError` hit when `cy_func` was never assigned. -/
inductive DenErr where
  | sel : SelErr → DenErr
  | grid : String → DenErr
  | arg : String → DenErr
  | unbound : String → DenErr
  deriving Repr, DecidableEq

/-- The `xarray.DataArray` returned by `density`: the 2-D field, its
coordinate vectors, and the metadata attributes. -/
structure DenOut where
  data : List (List ℚ)
  lonC : List ℚ
  latC : List ℚ
  units : String
  subsetLabel : String
  methodLabel : String
  deriving Repr, DecidableEq

/-- Printable form of the subset argument, for the `subset` attribute. -/
def SubsetArg.toLabel : SubsetArg → String
  | .all => "all"
  | .one s => s
  | .many ss => String.intercalate "," ss

/-- Elementwise combination of two matrices. -/
def map2D (f : ℚ → ℚ → ℚ) (a b : List (List ℚ)) : List (List ℚ) :=
  (a.zip b).map fun rw => (rw.1.zip rw.2).map fun p => f p.1 p.2

/-- The body of `density` once a concrete subset is fixed: grid setup, subset
selection, method selection (with the grid-validity check for `cell`), point
selection by `by`, kernel application, and area weighting.  `areas` stands
for `octant.grid.grid_cell_areas` (not part of the source tree).  An unknown
`method` leaves `cy_func` unassigned, which surfaces as an
`UnboundLocalError` at the application site, after the `by` dispatch. -/
def densityOne (gc : ℚ → ℚ → ℚ → ℚ → ℚ) (areas : List ℚ → List ℚ → List (List ℚ))
    (tr : TrackRun) (lon1d lat1d : List ℚ) (by_ : String) (s : SubsetArg)
    (method : String) (dist : ℚ) (exF exL : ℕ × ℕ)
    (gridCentres weightByArea : Bool) : Except DenErr DenOut := do
  -- Redefine grid if necessary
  let lon := if gridCentres then cellBounds lon1d else lon1d
  let lat := if gridCentres then cellBounds lat1d else lat1d
  let xlon := if gridCentres then lon1d else cellCentres lon1d
  let xlat := if gridCentres then lat1d else cellCentres lat1d
  -- Select subset
  let subD ← (getitem tr s).mapError DenErr.sel
  -- Select method
  let cyFun : Option (Option (List (ℚ × ℚ) → List (List ℚ)) ×
                      Option (List (ℕ × ℚ × ℚ) → List (List ℚ))) ×
              String ←
    if method == "radius" then
      let distM := dist * KM2M
      if by_ == "track" then
        pure (some (none, some (trackDensityRad gc distM lon lat)), "per disc")
      else
        pure (some (some (pointDensityRad gc distM lon lat), none), "per disc")
    else if method == "cell" then
      if hasNegDiff lon ∨ hasNegDiff lat then
        throw (.grid "Grid values must be in an ascending order")
      else if by_ == "track" then
        pure (some (none, some (trackDensityCell lon lat)), "1")
      else
        pure (some (some (pointDensityCell lon lat), none), "1")
    else
      pure (none, "")
  -- Convert dataframe columns
  let ptsSel : (List (ℚ × ℚ)) ⊕ (List (ℕ × ℚ × ℚ)) ←
    if by_ == "point" then
      pure (Sum.inl (subD.map fun r => (r.2.lon, r.2.lat)))
    else if by_ == "track" then
      pure (Sum.inr (subD.map fun r => (r.tid, r.2.lon, r.2.lat)))
    else if by_ == "genesis" then
      pure (Sum.inl ((genesisRows subD exF.1 exF.2).map fun r => (r.2.lon, r.2.lat)))
    else if by_ == "lysis" then
      pure (Sum.inl ((lysisRows subD exL.1 exL.2).map fun r => (r.2.lon, r.2.lat)))
    else
      throw (.arg "by should be one of point|track|genesis|lysis")
  -- Apply the kernel (`data = cy_func(...)`)
  let data0 ←
    match cyFun.1, ptsSel with
    | none, _ => throw (.unbound "cy_func")
    | some (some f, _), Sum.inl pts => pure (f pts)
    | some (_, some f), Sum.inr pts => pure (f pts)
    | some _, _ => throw (.unbound "cy_func")
  -- Weight by area
  let (data1, units1) :=
    if weightByArea then
      (map2D (fun v a => v / a * (KM2M * KM2M)) data0 (areas xlon xlat), "km-2")
    else (data0, cyFun.2)
  return { data := data1, lonC := xlon, latC := xlat, units := units1,
           subsetLabel := s.toLabel, methodLabel := method }

/-- The value returned by `density`: a field, or a label-keyed mapping when
the call dispatches over categories. -/
inductive DenRes where
  | single : DenOut → DenRes
  | byCat : List (String × DenRes) → DenRes
  deriving Repr

/-- `TrackRun.density`: with no subset on a categorised run, one recursive
call per category label collected into a label-keyed mapping; with no subset
on an uncategorised run, `subset` defaults to `"all"`. -/
def density (gc : ℚ → ℚ → ℚ → ℚ → ℚ) (areas : List ℚ → List ℚ → List (List ℚ))
    (tr : TrackRun) (lon1d lat1d : List ℚ) (by_ : String)
    (subset : Option SubsetArg) (method : String) (dist : ℚ)
    (exF exL : ℕ × ℕ) (gridCentres weightByArea : Bool) :
    Except DenErr DenRes :=
  match subset with
  | none =>
    if tr.is_categorised then do
      let entries ← (catLabels tr).mapM fun l => do
        let r ← (densityOne gc areas tr lon1d lat1d by_ (.one l) method dist exF exL
                  gridCentres weightByArea).map DenRes.single
        pure (l, r)
      pure (.byCat entries)
    else
      (densityOne gc areas tr lon1d lat1d by_ .all method dist exF exL
        gridCentres weightByArea).map DenRes.single
  | some s =>
    (densityOne gc areas tr lon1d lat1d by_ s method dist exF exL
      gridCentres weightByArea).map DenRes.single

/-! ## Concrete instances used by witnesses and counterexamples -/

/-- A concrete stand-in metric for `great_circle` in witnesses: non-negative,
symmetric, zero exactly at coincident points (degree-taxicab, in metres). -/
def gcEx : ℚ → ℚ → ℚ → ℚ → ℚ := fun x1 x2 y1 y2 => KM2M * (|x1 - x2| + |y1 - y2|)

/-- A concrete stand-in for `distance_metric` in witnesses. -/
def dmEx : List Rec → List Rec → ℚ := fun a b =>
  |(a.headD default).lon - (b.headD default).lon| +
  |(a.headD default).time - (b.headD default).time|

/-- A concrete stand-in for `grid_cell_areas` in witnesses. -/
def areasEx : List ℚ → List ℚ → List (List ℚ) := fun lon lat =>
  lat.map fun _ => lon.map fun _ => (1 : ℚ)

/-- A two-record track starting at the origin. -/
def trkA : List Rec :=
  [{ lon := 0, lat := 0, time := 0, month := 1, day := 1 },
   { lon := 1, lat := 0, time := 1, month := 1, day := 1 }]

/-- A one-record track at the origin at time 1. -/
def trkB : List Rec :=
  [{ lon := 0, lat := 0, time := 1, month := 1, day := 1 }]

/-- A stationary two-record track at the origin. -/
def trkC : List Rec :=
  [{ lon := 0, lat := 0, time := 0, month := 1, day := 1 },
   { lon := 0, lat := 0, time := 1, month := 1, day := 1 }]

/-- A stationary two-record track at the origin over hours 1–2. -/
def trkD : List Rec :=
  [{ lon := 0, lat := 0, time := 1, month := 1, day := 1 },
   { lon := 0, lat := 0, time := 2, month := 1, day := 1 }]

/-- A four-record track: two records at the origin, then two far away. -/
def trkE : List Rec :=
  [{ lon := 0, lat := 0, time := 0, month := 1, day := 1 },
   { lon := 0, lat := 0, time := 1, month := 1, day := 1 },
   { lon := 5, lat := 0, time := 2, month := 1, day := 1 },
   { lon := 5, lat := 0, time := 3, month := 1, day := 1 }]

/-- A concrete one-track, uncategorised `TrackRun`. -/
def trEx : TrackRun :=
  { data := [((0, 0), trkA.headD default), ((0, 1), trkA.getLastD default)],
    cats := none, is_categorised := false, is_cat_inclusive := false,
    tstep_h := some 1, sources := [], conf := none }

/-- A concrete categorised `TrackRun` with one track and one label. -/
def trCat : TrackRun :=
  { data := [((0, 0), trkA.headD default), ((0, 1), trkA.getLastD default)],
    cats := some { labels := ["pmc"], rows := [(0, [true])] },
    is_categorised := true, is_cat_inclusive := false,
    tstep_h := some 1, sources := [], conf := none }

/-! ## C6: empty inputs short-circuit to an empty pair list -/

/-- **C6.**  For every matching method (the theorem even covers unknown
method strings), `match_tracks` called with an empty `others` or with an
empty selected self subset returns an empty pair list immediately, raising
no error: the early return precedes both the `others` type dispatch and the
method dispatch. -/
theorem match_tracks_empty_inputs (gc : ℚ → ℚ → ℚ → ℚ → ℚ)
    (dm : List Rec → List Rec → ℚ) (tr : TrackRun) (others : Others)
    (s : SubsetArg) (method : String) (interpTo : InterpTo) (th tf : ℚ)
    (rdm : Bool) (d : List Row)
    (h : getitem tr s = .ok d)
    (hemp : (groupTracks d).length = 0 ∨ othersLen others = 0) :
    matchTracks gc dm tr others (some s) method interpTo th tf rdm =
      .ok (.single [] none) := by
  simp only [matchTracks, matchOne, h, Except.mapError, Except.bind, bind]
  rcases hemp with h1 | h1 <;> simp [h1] <;> rfl

/-- Witness for C6: concrete call with an empty `others` list under the
unknown-to-fail method `"bs2000"`. -/
theorem match_tracks_empty_inputs_witness :
    matchTracks gcEx dmEx trEx (.dfs []) (some .all) "bs2000" .toOther 250 (1/2) false =
      .ok (.single [] none) :=
  match_tracks_empty_inputs gcEx dmEx trEx (.dfs []) .all "bs2000" .toOther 250 (1/2)
    false trEx.data (by rfl) (Or.inr (by rfl))

/-! ## C5: category dispatch of `match_tracks` and `density` -/

/-- **C5.**  When `subset` is omitted on a categorised collection, both
`match_tracks` and `density` recurse exactly once per known category label
and return the label-keyed mapping of the same call with that label as
subset; on an uncategorised collection the omitted subset defaults to
`"all"`. -/
theorem subset_dispatch (gc : ℚ → ℚ → ℚ → ℚ → ℚ) (dm : List Rec → List Rec → ℚ)
    (areas : List ℚ → List ℚ → List (List ℚ)) (tr : TrackRun) (others : Others)
    (method : String) (interpTo : InterpTo) (th tf : ℚ) (rdm : Bool)
    (lon1d lat1d : List ℚ) (by_ mth : String) (dist : ℚ) (exF exL : ℕ × ℕ)
    (gcen wba : Bool) :
    (tr.is_categorised = true →
      matchTracks gc dm tr others none method interpTo th tf rdm =
        (do
          let entries ← (catLabels tr).mapM fun l => do
            let r ← matchTracks gc dm tr others (some (.one l)) method interpTo th tf rdm
            pure (l, r)
          pure (.byCat entries)) ∧
      density gc areas tr lon1d lat1d by_ none mth dist exF exL gcen wba =
        (do
          let entries ← (catLabels tr).mapM fun l => do
            let r ← density gc areas tr lon1d lat1d by_ (some (.one l)) mth dist exF exL gcen wba
            pure (l, r)
          pure (.byCat entries))) ∧
    (tr.is_categorised = false →
      matchTracks gc dm tr others none method interpTo th tf rdm =
        matchTracks gc dm tr others (some .all) method interpTo th tf rdm ∧
      density gc areas tr lon1d lat1d by_ none mth dist exF exL gcen wba =
        density gc areas tr lon1d lat1d by_ (some .all) mth dist exF exL gcen wba) := by
  constructor
  · intro h
    constructor
    · simp [matchTracks, h]
    · simp [density, h]
  · intro h
    constructor
    · simp [matchTracks, h]
    · simp [density, h]

/-- Witness for C5: on the concrete categorised run `trCat`, the omitted
subset produces the one-entry label mapping. -/
theorem subset_dispatch_witness :
    matchTracks gcEx dmEx trCat (.dfs [trkB]) none "simple" .toOther 250 (1/2) false =
      (do
        let entries ← (catLabels trCat).mapM fun l => do
          let r ← matchTracks gcEx dmEx trCat (.dfs [trkB]) (some (.one l)) "simple" .toOther
                    250 (1/2) false
          pure (l, r)
        pure (.byCat entries)) :=
  ((subset_dispatch gcEx dmEx areasEx trCat (.dfs [trkB]) "simple" .toOther 250 (1/2) false
      [0, 1] [0, 1] "point" "cell" 2 (10, 1) (4, 30) false false).1 (by rfl)).1

/-! ## C10: `extend` leaves `data` and `cats` untouched when it raises -/

/-- **C10.**  Whenever `extend` raises a `ConcatenationError` (mismatched
categorisation metadata between two non-empty runs, or differing time
steps), the receiving run's `data` and `cats` are unchanged at the moment of
the raise: both raise sites precede the concatenation and re-indexing. -/
theorem extend_error_state (a other : TrackRun) (ac : Bool) (e : String)
    (st : TrackRun) (h : extend a other ac = .error (e, st)) :
    st.data = a.data ∧ st.cats = a.cats := by
  unfold extend at h
  simp only [bind, Except.bind, pure, Except.pure, throw, throwThe,
    MonadExceptOf.throw] at h
  repeat' split at h
  all_goals
    first
      | (simp only [Except.error.injEq, Prod.mk.injEq] at h
         obtain ⟨-, h2⟩ := h
         subst h2
         exact ⟨rfl, rfl⟩)
      | exact absurd h (by simp)

/-- Witness for C10: extending a categorised run by an uncategorised one
raises, and the state carried by the error keeps `data` and `cats`. -/
theorem extend_error_state_witness :
    (extend trCat trEx true = Except.error
      ("Categorisation metadata is different for is_categorised", trCat)) ∧
    trCat.data = trCat.data ∧ trCat.cats = trCat.cats :=
  ⟨by rfl, extend_error_state trCat trEx true
    "Categorisation metadata is different for is_categorised" trCat (by rfl)⟩

/-! ## C8: argument validation -/

/-- **C8** (code bug).  An unknown `method` in `match_tracks` and a
wrong-typed `others` raise descriptive `ArgumentError`s, and an unknown `by`
in `density` does too — but an unknown `method` passed to `density` is never
rejected: no method branch assigns `cy_func`, so the call crashes at the
application site with an `UnboundLocalError` after the `by` selection has
already run, instead of failing fast with a descriptive argument error. -/
theorem density_unknown_method_unbound :
    densityOne gcEx areasEx trEx [0, 1] [0, 1] "point" .all "foo" 2 (10, 1) (4, 30)
        false false = .error (.unbound "cy_func") ∧
    matchOne gcEx dmEx trEx (.dfs [trkB]) .all "foo" .toOther 250 (1/2) false =
      .error (.arg ("Unknown method: " ++ "foo")) ∧
    matchOne gcEx dmEx trEx (.bad 3) .all "simple" .toOther 250 (1/2) false =
      .error (.arg "Argument others has a wrong type") ∧
    densityOne gcEx areasEx trEx [0, 1] [0, 1] "bogus" .all "cell" 2 (10, 1) (4, 30)
        false false = .error (.arg "by should be one of point|track|genesis|lysis") := by
  refine ⟨by rfl, by rfl, by rfl, ?_⟩
  have h1 : hasNegDiff ([0, 1] : List ℚ) = false := by norm_num [hasNegDiff]
  simp [densityOne, h1, bind, Except.bind, pure, Except.pure, throw, throwThe,
    MonadExceptOf.throw, getitem, Except.mapError, SubsetArg.isAll]

/-! ## C2: track ids are re-indexed to a contiguous zero-based sequence -/

theorem runIndexAux_contig (xs : List ℕ) : ∀ (x cur : ℕ), ∃ K, cur < K ∧
    ∀ k, (k ∈ cur :: runIndexAux x cur xs ↔ cur ≤ k ∧ k < K) := by
  induction xs with
  | nil =>
    intro x cur
    exact ⟨cur + 1, by omega, fun k => by simp [runIndexAux]; omega⟩
  | cons y ys ih =>
    intro x cur
    by_cases hyx : y = x
    · obtain ⟨K, hK, hmem⟩ := ih y cur
      refine ⟨K, hK, fun k => ?_⟩
      simp only [runIndexAux, if_pos hyx]
      rw [← hmem k]
      constructor
      · intro hk
        rcases List.mem_cons.mp hk with rfl | hk2
        · exact List.mem_cons.mpr (Or.inl rfl)
        · exact hk2
      · intro hk
        exact List.mem_cons.mpr (Or.inr hk)
    · obtain ⟨K, hK, hmem⟩ := ih y (cur + 1)
      refine ⟨K, by omega, fun k => ?_⟩
      simp only [runIndexAux, if_neg hyx]
      constructor
      · intro hk
        rcases List.mem_cons.mp hk with rfl | hk2
        · exact ⟨le_refl _, by omega⟩
        · have h2 := (hmem k).mp hk2
          exact ⟨by omega, h2.2⟩
      · rintro ⟨h1, h2⟩
        by_cases hc : k = cur
        · exact List.mem_cons.mpr (Or.inl hc)
        · exact List.mem_cons.mpr (Or.inr ((hmem k).mpr ⟨by omega, h2⟩))

theorem runIndex_contig (l : List ℕ) : ∃ K, ∀ k, k ∈ runIndex l ↔ k < K := by
  cases l with
  | nil => exact ⟨0, fun k => by simp [runIndex]⟩
  | cons x xs =>
    obtain ⟨K, -, hmem⟩ := runIndexAux_contig xs x 0
    exact ⟨K, fun k => by rw [runIndex, hmem k]; omega⟩

theorem runIndexAux_length (xs : List ℕ) : ∀ (x cur : ℕ),
    (runIndexAux x cur xs).length = xs.length := by
  induction xs with
  | nil => intro x cur; rfl
  | cons y ys ih =>
    intro x cur
    by_cases hyx : y = x <;> simp [runIndexAux, hyx, ih]

theorem runIndex_length (l : List ℕ) : (runIndex l).length = l.length := by
  cases l with
  | nil => rfl
  | cons x xs => simp [runIndex, runIndexAux_length]

theorem zip_map_strip (ks : List ℕ) : ∀ (d : List Row), ks.length = d.length →
    (((ks.zip d).map fun p => ((p.1, p.2.1.2), p.2.2)).map fun r : Row => (r.1.2, r.2)) =
      d.map fun r : Row => (r.1.2, r.2) := by
  induction ks with
  | nil =>
    intro d h
    cases d with
    | nil => rfl
    | cons r rs => simp at h
  | cons k ks ih =>
    intro d h
    cases d with
    | nil => simp at h
    | cons r rs => simp_all [ih rs]

theorem reindexData_strip (d : List Row) :
    (reindexData d).map (fun r : Row => (r.1.2, r.2)) = d.map fun r : Row => (r.1.2, r.2) := by
  apply zip_map_strip
  simp [runIndex_length]

theorem reindexData_tids (d : List Row) :
    (reindexData d).map Row.tid = runIndex (d.map Row.tid) := by
  unfold reindexData
  rw [List.map_map]
  rw [show (Row.tid ∘ fun p : ℕ × Row => ((p.1, p.2.1.2), p.2.2)) =
      Prod.fst from by funext p; rfl]
  exact List.map_fst_zip _ _ (by simp [runIndex_length])

theorem extend_ok_data (a other : TrackRun) (ac : Bool) (c : TrackRun)
    (h : extend a other ac = .ok c) :
    c.data = reindexData (a.data ++ other.data) := by
  unfold extend at h
  simp only [bind, Except.bind, pure, Except.pure, throw, throwThe,
    MonadExceptOf.throw] at h
  repeat' split at h
  all_goals
    first
      | (injection h with h1; rw [← h1])
      | exact absurd h (by simp)

/-- **C2.**  Combining two `TrackRun`s with `extend` (or `__add__`)
re-establishes the invariant that the track ids of the data form a
contiguous zero-based integer sequence, whatever the original ids were, and
preserves every original record (and its `row_idx`) in its original order. -/
theorem extend_reindexes (a other : TrackRun) (ac : Bool) (c c' : TrackRun) :
    (extend a other ac = .ok c →
      (∃ K, ∀ k, k ∈ c.data.map Row.tid ↔ k < K) ∧
      c.data.map (fun r : Row => (r.1.2, r.2)) =
        a.data.map (fun r : Row => (r.1.2, r.2)) ++
          other.data.map (fun r : Row => (r.1.2, r.2))) ∧
    (addTR a other = .ok c' →
      (∃ K, ∀ k, k ∈ c'.data.map Row.tid ↔ k < K) ∧
      c'.data.map (fun r : Row => (r.1.2, r.2)) =
        a.data.map (fun r : Row => (r.1.2, r.2)) ++
          other.data.map (fun r : Row => (r.1.2, r.2))) := by
  constructor
  · intro h
    have hd := extend_ok_data a other ac c h
    constructor
    · rw [hd, reindexData_tids]
      exact runIndex_contig _
    · rw [hd, reindexData_strip, List.map_append]
  · intro h
    unfold addTR at h
    simp only [bind, Except.bind] at h
    cases h1 : extend TrackRun.empty a with
    | error e => rw [h1] at h; exact absurd h (by simp)
    | ok n1 =>
      rw [h1] at h
      have hn1 := extend_ok_data _ _ _ _ h1
      have hd := extend_ok_data n1 other true c' h
      constructor
      · rw [hd, reindexData_tids]
        exact runIndex_contig _
      · rw [hd, reindexData_strip, List.map_append, hn1, reindexData_strip]
        simp [TrackRun.empty]

/-- The value of `extend trEx trEx true` (two copies of the same one-track
run; the adjacent equal ids merge into a single run of id 0). -/
def extendExRes : TrackRun :=
  { data := [((0, 0), trkA.headD default), ((0, 1), trkA.getLastD default),
             ((0, 0), trkA.headD default), ((0, 1), trkA.getLastD default)],
    cats := none, is_categorised := false, is_cat_inclusive := false,
    tstep_h := some 1, sources := [], conf := none }

/-- Witness for C2: the result of a concrete successful `extend`. -/
theorem extend_reindexes_witness :
    (∃ K, ∀ k, k ∈ (extendExRes).data.map Row.tid ↔ k < K) ∧
    (extendExRes).data.map (fun r : Row => (r.1.2, r.2)) =
      trEx.data.map (fun r : Row => (r.1.2, r.2)) ++
        trEx.data.map (fun r : Row => (r.1.2, r.2)) :=
  (extend_reindexes trEx trEx true extendExRes TrackRun.empty).1 (by rfl)

/-! ## C1: `bs2000` returns exactly the mutual nearest neighbours -/

theorem argminIdx_lt_length (l : List ℚ) : l ≠ [] → argminIdx l < l.length := by
  induction l with
  | nil => simp
  | cons x xs ih =>
    cases xs with
    | nil => intro _; simp [argminIdx]
    | cons y ys =>
      intro _
      simp only [argminIdx]
      split
      · have := ih (by simp)
        simp only [List.length_cons] at *
        omega
      · simp

theorem argminIdx_min (l : List ℚ) : ∀ (t : ℕ), t < l.length →
    l.getD (argminIdx l) 0 ≤ l.getD t 0 := by
  induction l with
  | nil => simp
  | cons x xs ih =>
    cases xs with
    | nil =>
      intro t ht
      simp only [List.length_cons, List.length_nil] at ht
      have : t = 0 := by omega
      subst this
      simp [argminIdx]
    | cons y ys =>
      intro t ht
      simp only [argminIdx]
      split
      case isTrue h =>
        cases t with
        | zero => simpa using le_of_lt h
        | succ t' =>
          have := ih t' (by simpa using ht)
          simpa using this
      case isFalse h =>
        cases t with
        | zero => simp
        | succ t' =>
          have h1 := ih t' (by simpa using ht)
          have h2 := not_lt.mp h
          simp only [List.getD_cons_succ, List.getD_cons_zero]
          exact le_trans h2 h1

/-- **C1.**  On a non-degenerate distance matrix, a pair is in the `bs2000`
output iff it is a mutual nearest neighbour: the pair is
`(subIdx[j], otherIdx[i])` where `i` is the first column index minimising row
`j` and `j` is the first row index minimising column `i` (conjuncts 2 and 3
state that `argminIdx` is a minimising index of the row, resp. the column).
A self track with no mutual partner contributes no pair. -/
theorem bs2000_mutual_nn (subIdx otherIdx : List ℕ) (m : List (List ℚ))
    (hN : subIdx ≠ []) (hM : otherIdx ≠ [])
    (hrows : m.length = subIdx.length)
    (hcols : ∀ row ∈ m, row.length = otherIdx.length) :
    (∀ p q, ((p, q) ∈ bs2000Pairs subIdx otherIdx m ↔
      ∃ j i, j < subIdx.length ∧ i < otherIdx.length ∧
        argminIdx (m.getD j []) = i ∧ argminIdx (colOf m i) = j ∧
        p = subIdx.getD j 0 ∧ q = otherIdx.getD i 0)) ∧
    (∀ j, j < subIdx.length →
      argminIdx (m.getD j []) < otherIdx.length ∧
      ∀ t, t < otherIdx.length →
        (m.getD j []).getD (argminIdx (m.getD j [])) 0 ≤ (m.getD j []).getD t 0) ∧
    (∀ i, i < otherIdx.length →
      argminIdx (colOf m i) < subIdx.length ∧
      ∀ t, t < subIdx.length →
        (colOf m i).getD (argminIdx (colOf m i)) 0 ≤ (colOf m i).getD t 0) := by
  have hrowlen : ∀ j, j < subIdx.length → (m.getD j []).length = otherIdx.length := by
    intro j hj
    have hjm : j < m.length := by omega
    rw [List.getD_eq_getElem _ _ hjm]
    exact hcols _ (List.getElem_mem hjm)
  have hcollen : ∀ i, (colOf m i).length = subIdx.length := by
    intro i; simp [colOf, hrows]
  refine ⟨?_, ?_, ?_⟩
  · intro p q
    simp only [bs2000Pairs, List.mem_flatMap, List.mem_filterMap, List.mem_range,
      Option.ite_none_right_eq_some, Option.some.injEq, Prod.mk.injEq]
    constructor
    · rintro ⟨i, hi, j, hj, ⟨hi2, hj2⟩, hp, hq⟩
      exact ⟨j, i, hj, hi, hi2.symm, hj2.symm, by rw [← hp, ← hj2], by rw [← hq, ← hi2]⟩
    · rintro ⟨j, i, hj, hi, hA, hB, hp, hq⟩
      exact ⟨i, hi, j, hj, ⟨hA.symm, hB.symm⟩, by rw [hB, hp], by rw [hA, hq]⟩
  · intro j hj
    have hne : (m.getD j []) ≠ [] := by
      have := hrowlen j hj
      intro hc
      rw [hc] at this
      simp at this
      exact hM (List.eq_nil_of_length_eq_zero this.symm)
    refine ⟨?_, ?_⟩
    · have := argminIdx_lt_length _ hne
      rw [hrowlen j hj] at this
      exact this
    · intro t ht
      exact argminIdx_min _ t (by rw [hrowlen j hj]; exact ht)
  · intro i hi
    have hne : colOf m i ≠ [] := by
      intro hc
      have := hcollen i
      rw [hc] at this
      simp at this
      exact hN (List.eq_nil_of_length_eq_zero this.symm)
    refine ⟨?_, ?_⟩
    · have := argminIdx_lt_length _ hne
      rw [hcollen i] at this
      exact this
    · intro t ht
      exact argminIdx_min _ t (by rw [hcollen i]; exact ht)

/-- Witness for C1: the concrete matrix `[[0, 5], [5, 1]]` has mutual
nearest neighbours `(0,0)` and `(1,1)`; the iff certifies the first. -/
theorem bs2000_mutual_nn_witness :
    (0, 0) ∈ bs2000Pairs [0, 1] [0, 1] [[0, 5], [5, 1]] :=
  ((bs2000_mutual_nn [0, 1] [0, 1] [[0, 5], [5, 1]] (by simp) (by simp) (by simp)
    (by intro row hrow; fin_cases hrow <;> simp)).1 0 0).mpr
    ⟨0, 0, by simp, by simp,
      by norm_num [argminIdx], by norm_num [argminIdx, colOf], by simp, by simp⟩

/-! ## C4: `intersection` pairs the first qualifying candidate -/

theorem find?_eq_some_decomp {α : Type _} (p : α → Bool) (l : List α) (x : α) :
    l.find? p = some x ↔
      ∃ l1 l2, l = l1 ++ x :: l2 ∧ p x = true ∧ ∀ y ∈ l1, p y = false := by
  induction l with
  | nil => simp
  | cons a as ih =>
    by_cases hpa : p a = true
    · rw [List.find?_cons_of_pos _ hpa]
      simp only [Option.some.injEq]
      constructor
      · rintro rfl
        exact ⟨[], as, rfl, hpa, by simp⟩
      · rintro ⟨l1, l2, heq, hpx, hall⟩
        cases l1 with
        | nil =>
          simp only [List.nil_append, List.cons.injEq] at heq
          exact heq.1
        | cons b bs =>
          simp only [List.cons_append, List.cons.injEq] at heq
          have hb := hall b (by simp)
          rw [← heq.1, hpa] at hb
          exact absurd hb (by simp)
    · have hpa' : p a = false := by simpa using hpa
      rw [List.find?_cons_of_neg _ (by simp [hpa']), ih]
      constructor
      · rintro ⟨l1, l2, rfl, hpx, hall⟩
        refine ⟨a :: l1, l2, rfl, hpx, ?_⟩
        intro y hy
        rcases List.mem_cons.mp hy with rfl | hy2
        · exact hpa'
        · exact hall y hy2
      · rintro ⟨l1, l2, heq, hpx, hall⟩
        cases l1 with
        | nil =>
          simp only [List.nil_append, List.cons.injEq] at heq
          rw [← heq.1] at hpx
          rw [hpx] at hpa'
          exact absurd hpa' (by simp)
        | cons b bs =>
          simp only [List.cons_append, List.cons.injEq] at heq
          exact ⟨bs, l2, heq.2, hpx, fun y hy => hall y (List.mem_cons_of_mem b hy)⟩

/-- With a zero distance threshold, a non-negative metric and time-sorted
other-tracks, no candidate ever qualifies in the `intersection` method. -/
theorem interQ_zero_thresh (gc : ℚ → ℚ → ℚ → ℚ → ℚ) (tf : ℚ) (ot oot : List Rec)
    (hgc : ∀ x1 x2 y1 y2, 0 ≤ gc x1 x2 y1 y2) (htf : 0 ≤ tf)
    (hsorted : (oot.map Rec.time).headD 0 ≤ (oot.map Rec.time).getLastD 0) :
    interQ gc 0 tf ot oot = false := by
  simp only [interQ]
  split
  · split
    · apply decide_eq_false
      rintro ⟨-, h2⟩
      have hfil : ((alignedPairs oot ot).map fun p => gc p.1.lon p.2.lon p.1.lat p.2.lat).filter
          (fun d => decide (d < 0 * KM2M)) = [] := by
        apply List.filter_eq_nil.mpr
        intro d hd
        simp only [List.mem_map] at hd
        obtain ⟨pr, -, rfl⟩ := hd
        simp only [decide_eq_true_eq, not_lt, zero_mul]
        exact hgc _ _ _ _
      rw [hfil] at h2
      simp only [List.length_nil, Nat.cast_zero, zero_mul, gt_iff_lt] at h2
      have := mul_nonneg htf (sub_nonneg.mpr hsorted)
      linarith
    · rfl
  · rfl

/-- **C4.**  A pair `(a, b)` is produced by the `intersection` method iff
`b` is the first enumerated other-track qualifying against self track `a`
(scanning stops there), where qualification compares the aligned-record
count times the sampling interval, and the within-radius aligned count times
the sampling interval, against `time_frac` times that other-track's
lifetime.  With `thresh_dist = 0` and a non-negative metric, the result is
always empty. -/
theorem intersection_matching (gc : ℚ → ℚ → ℚ → ℚ → ℚ) (th tf : ℚ)
    (subG otherG : List (ℕ × List Rec)) :
    (∀ a b, ((a, b) ∈ matchIntersection gc th tf subG otherG ↔
      ∃ ot, (a, ot) ∈ subG ∧ ∃ l1 oot l2,
        otherG = l1 ++ (b, oot) :: l2 ∧ interQ gc th tf ot oot = true ∧
        ∀ y ∈ l1, interQ gc th tf ot y.2 = false)) ∧
    ((∀ x1 x2 y1 y2, 0 ≤ gc x1 x2 y1 y2) → 0 ≤ tf →
      (∀ q ∈ otherG, ((q.2 : List Rec).map Rec.time).headD 0 ≤
        (q.2.map Rec.time).getLastD 0) →
      matchIntersection gc 0 tf subG otherG = []) := by
  constructor
  · intro a b
    simp only [matchIntersection, List.mem_filterMap]
    constructor
    · rintro ⟨p, hp, hfp⟩
      cases hfind : otherG.find? (fun q => interQ gc th tf p.2 q.2) with
      | none => rw [hfind] at hfp; simp at hfp
      | some q =>
        rw [hfind] at hfp
        simp only [Option.some.injEq, Prod.mk.injEq] at hfp
        obtain ⟨ha, hb⟩ := hfp
        obtain ⟨l1, l2, heq, hq, hall⟩ := (find?_eq_some_decomp _ _ _).mp hfind
        refine ⟨p.2, ?_, l1, q.2, l2, ?_, hq, hall⟩
        · rw [← ha]
          simpa using hp
        · rw [← hb]
          simpa using heq
    · rintro ⟨ot, hot, l1, oot, l2, heq, hq, hall⟩
      refine ⟨(a, ot), hot, ?_⟩
      have hfind : otherG.find? (fun q => interQ gc th tf ot q.2) = some (b, oot) :=
        (find?_eq_some_decomp _ _ _).mpr ⟨l1, l2, heq, hq, hall⟩
      simpa using congrArg (fun o => match o with
        | some (q : ℕ × List Rec) => some (a, q.1)
        | none => (none : Option (ℕ × ℕ))) hfind
  · intro hgc htf hsorted
    apply List.filterMap_eq_nil.mpr
    intro p _
    have hfind : otherG.find? (fun q => interQ gc 0 tf p.2 q.2) = none := by
      rw [List.find?_eq_none]
      intro q hq
      simp [interQ_zero_thresh gc tf p.2 q.2 hgc htf (hsorted q hq)]
    simp [hfind]

/-- Witness for C4: a concrete identical pair of tracks qualifies at a
250 km threshold, and the zero-threshold call returns no pairs. -/
theorem intersection_matching_witness :
    (0, 7) ∈ matchIntersection gcEx 250 (1/2) [(0, trkA)] [(7, trkA)] ∧
    matchIntersection gcEx 0 (1/2) [(0, trkA)] [(7, trkB)] = [] := by
  constructor
  · refine ((intersection_matching gcEx 250 (1/2) [(0, trkA)] [(7, trkA)]).1 0 7).mpr
      ⟨trkA, by simp, [], trkA, [], rfl, ?_, by simp⟩
    norm_num [interQ, alignedPairs, lastTwoDiff, trkA, gcEx, KM2M]
  · exact (intersection_matching gcEx 0 (1/2) [(0, trkA)] [(7, trkB)]).2
      (by intro x1 x2 y1 y2; unfold gcEx KM2M; positivity) (by norm_num)
      (by intro q hq; fin_cases hq; norm_num [trkB])

/-! ## C7: the `cell` grid-validity check -/

/-- Counterexample to C7 as stated: the boundary array `[0, 0, 1]` is *not*
strictly ascending (its first step is zero), yet `density` with
`method="cell"` raises no error at all — the source only rejects a strictly
negative step (`(np.diff(...) < 0).any()`). -/
theorem density_cell_equal_bounds_accepted :
    (densityOne gcEx areasEx trEx [0, 0, 1] [0, 1] "point" .all "cell" 2 (10, 1)
      (4, 30) false false).isOk = true := by
  have h1 : hasNegDiff ([0, 0, 1] : List ℚ) = false := by norm_num [hasNegDiff]
  have h2 : hasNegDiff ([0, 1] : List ℚ) = false := by norm_num [hasNegDiff]
  simp [densityOne, h1, h2, bind, Except.bind, pure, Except.pure, throw, throwThe,
    MonadExceptOf.throw, getitem, Except.mapError, SubsetArg.isAll, Except.isOk,
    Except.toBool]

/-- **C7 (amended).**  `density` with `method="cell"` raises the
grid-validity error iff one of the two boundary coordinate arrays has an
adjacent *decrease*; equal adjacent boundaries are accepted.  The check
happens in the method-selection phase, before point selection and before any
accumulation, and the grid is never reordered. -/
theorem density_cell_grid_check (gc : ℚ → ℚ → ℚ → ℚ → ℚ)
    (areas : List ℚ → List ℚ → List (List ℚ)) (tr : TrackRun)
    (lon1d lat1d : List ℚ) (by_ : String) (s : SubsetArg) (dist : ℚ)
    (exF exL : ℕ × ℕ) (gcen wba : Bool) (d : List Row)
    (hget : getitem tr s = .ok d) :
    ((hasNegDiff (if gcen then cellBounds lon1d else lon1d) = true ∨
      hasNegDiff (if gcen then cellBounds lat1d else lat1d) = true) →
      densityOne gc areas tr lon1d lat1d by_ s "cell" dist exF exL gcen wba =
        .error (.grid "Grid values must be in an ascending order")) ∧
    (hasNegDiff (if gcen then cellBounds lon1d else lon1d) = false →
     hasNegDiff (if gcen then cellBounds lat1d else lat1d) = false →
      ∀ msg, densityOne gc areas tr lon1d lat1d by_ s "cell" dist exF exL gcen wba ≠
        .error (.grid msg)) := by
  constructor
  · intro hneg
    simp only [densityOne, bind, Except.bind, pure, Except.pure, throw, throwThe,
      MonadExceptOf.throw, hget, Except.mapError]
    rcases hneg with h | h <;> simp [h]
  · intro hF1 hF2 msg
    have hcr : (("cell" : String) == "radius") = false := by rfl
    have hcc : (("cell" : String) == "cell") = true := by rfl
    simp only [densityOne, bind, Except.bind, pure, Except.pure, throw, throwThe,
      MonadExceptOf.throw, hget, Except.mapError, hcr, hcc, hF1, hF2,
      Bool.false_eq_true, if_false, if_true, false_or, or_false, ite_true, ite_false]
    repeat' split
    all_goals simp

/-- Witness for C7: a descending longitude boundary array raises the grid
error on a concrete call. -/
theorem density_cell_grid_check_witness :
    densityOne gcEx areasEx trEx [1, 0] [0, 1] "point" .all "cell" 2 (10, 1) (4, 30)
      false false = .error (.grid "Grid values must be in an ascending order") :=
  (density_cell_grid_check gcEx areasEx trEx [1, 0] [0, 1] "point" .all 2 (10, 1) (4, 30)
    false false trEx.data (by rfl)).1 (Or.inl (by norm_num [hasNegDiff]))

/-! ## C9: subset selection via `__getitem__` -/

/-- Counterexample to C9 as stated: on an empty `TrackRun`, selecting with a
label that is not among the known category labels (there are none) does not
raise a selection error — `__getitem__` short-circuits on `len(self) == 0`
and returns the (empty) data. -/
theorem getitem_empty_unknown_label_ok :
    getitem TrackRun.empty (.one "foo") = .ok [] := by rfl

theorem zipSelfMap {A B C : Type _} (g : A → B) (h : A × B → C) (l : List A) :
    (l.zip (l.map g)).map h = l.map fun x => h (x, g x) := by
  induction l with
  | nil => rfl
  | cons a as ih => simp [ih]

theorem selectFlags_all_known (c : Cats) : ∀ (ls : List String),
    (∀ l ∈ ls, l ∈ c.labels) →
    selectFlags c ls = .ok (c.rows.map fun p => (p.1, ls.all fun l => c.flag p.2 l)) := by
  intro ls
  induction ls with
  | nil => intro _; simp [selectFlags]
  | cons l ls ih =>
    intro hknown
    have hl : l ∈ c.labels := hknown l (by simp)
    have hrest := ih (fun l2 hl2 => hknown l2 (List.mem_cons_of_mem l hl2))
    simp only [selectFlags, if_pos hl, hrest]
    rw [zipSelfMap]
    simp [List.all_cons]

theorem selectFlags_unknown (c : Cats) : ∀ (ls : List String),
    (∃ l ∈ ls, l ∉ c.labels) →
    ∃ l, l ∈ ls ∧ l ∉ c.labels ∧ selectFlags c ls = .error (.selectError l) := by
  intro ls
  induction ls with
  | nil => rintro ⟨l, hl, -⟩; simp at hl
  | cons a as ih =>
    rintro ⟨l, hl, hlu⟩
    by_cases ha : a ∈ c.labels
    · have hmem : l ∈ as := by
        rcases List.mem_cons.mp hl with rfl | h
        · exact absurd ha hlu
        · exact h
      obtain ⟨l2, hl2, hlu2, herr⟩ := ih ⟨l, hmem, hlu⟩
      refine ⟨l2, List.mem_cons_of_mem a hl2, hlu2, ?_⟩
      simp only [selectFlags, if_pos ha, herr]
    · exact ⟨a, by simp, ha, by simp only [selectFlags, if_neg ha]⟩

/-- **C9 (amended).**  On a *non-empty categorised* `TrackRun`: selecting
with no label yields all tracks; selecting with a list of known labels
yields exactly the data rows whose track flags are true for every requested
label (the intersection of the boolean membership columns, restricted to
rows present in the data); selecting with any unknown label raises
`SelectError`.  (As stated the claim fails on an empty run, which returns
its empty data for any label without error; a non-empty uncategorised run
raises `NotCategorisedError` instead.) -/
theorem getitem_selection (tr : TrackRun) (c : Cats)
    (hc : tr.cats = some c) (hcat : tr.is_categorised = true)
    (hsz : trSize tr ≠ 0) :
    (getitem tr .all = .ok tr.data) ∧
    (∀ ls, (∀ l ∈ ls, l ∈ c.labels) →
      ∀ rows, getitem tr (.many ls) = .ok rows →
        ∀ r : Row, (r ∈ rows ↔
          ∃ flags, (r.tid, flags) ∈ c.rows ∧ r ∈ tr.data ∧
            (ls.all fun l => c.flag flags l) = true)) ∧
    (∀ ls, (∃ l ∈ ls, l ∉ c.labels) →
      ∃ l, l ∈ ls ∧ l ∉ c.labels ∧
        getitem tr (.many ls) = .error (.selectError l)) := by
  refine ⟨?_, ?_, ?_⟩
  · simp [getitem, SubsetArg.isAll]
  · intro ls hknown rows hrows r
    simp only [getitem, SubsetArg.isAll, SubsetArg.labels, Bool.false_or, beq_iff_eq,
      hsz, if_false, hcat, if_true, hc, selectFlags_all_known c ls hknown,
      Except.ok.injEq] at hrows
    subst hrows
    simp only [List.mem_flatMap]
    constructor
    · rintro ⟨i, hi, hrf⟩
      simp only [List.mem_map, List.mem_filter, List.mem_map] at hi
      obtain ⟨q, ⟨⟨p, hp, hgp⟩, hq2⟩, hqi⟩ := hi
      rw [List.mem_filter] at hrf
      obtain ⟨hrd, htid⟩ := hrf
      have hti : r.tid = p.1 := by
        rw [← hgp] at hqi
        simp only at hqi
        rw [← hqi] at htid
        simpa using htid
      refine ⟨p.2, ?_, hrd, ?_⟩
      · rw [hti]
        simpa using hp
      · rw [← hgp] at hq2
        simpa using hq2
    · rintro ⟨flags, hmem, hrd, hall⟩
      refine ⟨r.tid, ?_, ?_⟩
      · simp only [List.mem_map, List.mem_filter, List.mem_map]
        exact ⟨(r.tid, ls.all fun l => c.flag flags l), ⟨⟨(r.tid, flags), hmem, rfl⟩, hall⟩, rfl⟩
      · rw [List.mem_filter]
        exact ⟨hrd, by simp⟩
  · intro ls hunk
    obtain ⟨l, hl, hlu, herr⟩ := selectFlags_unknown c ls hunk
    refine ⟨l, hl, hlu, ?_⟩
    simp only [getitem, SubsetArg.isAll, SubsetArg.labels, Bool.false_or, beq_iff_eq,
      hsz, if_false, hcat, if_true, hc]
    rw [herr]

/-- Witness for C9: on the concrete categorised run `trCat`, all-selection
returns the full data and the unknown label `"nope"` raises `SelectError`. -/
theorem getitem_selection_witness :
    getitem trCat .all = .ok trCat.data ∧
    (∃ l, l ∈ ["nope"] ∧ l ∉ (["pmc"] : List String) ∧
      getitem trCat (.many ["nope"]) = .error (.selectError l)) := by
  have h := getitem_selection trCat { labels := ["pmc"], rows := [(0, [true])] }
    (by rfl) (by rfl) (by decide)
  exact ⟨h.1, h.2.2 ["nope"] ⟨"nope", by simp, by simp⟩⟩

/-! ## C3: the `simple` method candidacy and tie-break -/

theorem mem_insertCnt (x y : ℕ × ℕ) (l : List (ℕ × ℕ)) :
    y ∈ insertCnt x l ↔ y = x ∨ y ∈ l := by
  induction l with
  | nil => simp [insertCnt]
  | cons a as ih =>
    simp only [insertCnt]
    split
    · simp [List.mem_cons]
    · simp only [List.mem_cons, ih]
      tauto

theorem insertCnt_ne_nil (x : ℕ × ℕ) (l : List (ℕ × ℕ)) : insertCnt x l ≠ [] := by
  cases l with
  | nil => simp [insertCnt]
  | cons a as =>
    simp only [insertCnt]
    split <;> simp

theorem ssort_ne_nil (l : List (ℕ × ℕ)) (h : l ≠ []) : ssort l ≠ [] := by
  cases l with
  | nil => exact absurd rfl h
  | cons x xs => exact insertCnt_ne_nil _ _

theorem mem_ssort (y : ℕ × ℕ) (l : List (ℕ × ℕ)) : y ∈ ssort l ↔ y ∈ l := by
  induction l with
  | nil => simp [ssort]
  | cons x xs ih => simp only [ssort, mem_insertCnt, List.mem_cons, ih]

theorem getLastD_insertCnt_big (x : ℕ × ℕ) (l : List (ℕ × ℕ)) (d : ℕ × ℕ)
    (h : ∀ y ∈ l, y.2 < x.2) : (insertCnt x l).getLastD d = x := by
  induction l generalizing d with
  | nil => rfl
  | cons a as ih =>
    simp only [insertCnt]
    rw [if_neg (not_le.mpr (h a (by simp)))]
    rw [List.getLastD_cons]
    exact ih a (fun y hy => h y (List.mem_cons_of_mem a hy))

theorem getLastD_insertCnt_small (x : ℕ × ℕ) (l : List (ℕ × ℕ)) (d : ℕ × ℕ)
    (h : ∃ y ∈ l, x.2 ≤ y.2) : (insertCnt x l).getLastD d = l.getLastD d := by
  induction l generalizing d with
  | nil =>
    obtain ⟨y, hy, -⟩ := h
    simp at hy
  | cons a as ih =>
    simp only [insertCnt]
    by_cases hxa : x.2 ≤ a.2
    · rw [if_pos hxa, List.getLastD_cons, List.getLastD_cons, List.getLastD_cons]
    · rw [if_neg hxa, List.getLastD_cons, List.getLastD_cons]
      apply ih
      obtain ⟨y, hy, hxy⟩ := h
      rcases List.mem_cons.mp hy with rfl | h2
      · exact absurd hxy hxa
      · exact ⟨y, h2, hxy⟩

/-- The last element of the stable sort is the *last* maximal-count element
of the original candidate list: everything before it has a count at most
its own, everything after it a strictly smaller count. -/
theorem ssort_last_decomp (l : List (ℕ × ℕ)) (h : l ≠ []) :
    ∃ l1 m l2, l = l1 ++ m :: l2 ∧ (ssort l).getLastD (0, 0) = m ∧
      (∀ y ∈ l1, y.2 ≤ m.2) ∧ (∀ y ∈ l2, y.2 < m.2) := by
  induction l with
  | nil => exact absurd rfl h
  | cons x xs ih =>
    cases hxs : xs with
    | nil =>
      refine ⟨[], x, [], by simp, ?_, by simp, by simp⟩
      subst hxs
      rfl
    | cons b bs =>
      rw [← hxs]
      have hxs2 : xs ≠ [] := by rw [hxs]; simp
      obtain ⟨l1, m, l2, hdec, hlast, hle, hlt⟩ := ih hxs2
      by_cases hbig : ∀ y ∈ ssort xs, y.2 < x.2
      · refine ⟨[], x, xs, by simp, ?_, by simp, ?_⟩
        · exact getLastD_insertCnt_big x (ssort xs) _ hbig
        · intro y hy
          exact hbig y ((mem_ssort y xs).mpr hy)
      · push_neg at hbig
        obtain ⟨y, hy, hxy⟩ := hbig
        have hlast2 : (ssort (x :: xs)).getLastD (0, 0) = (ssort xs).getLastD (0, 0) :=
          getLastD_insertCnt_small x (ssort xs) _ ⟨y, hy, hxy⟩
        refine ⟨x :: l1, m, l2, by rw [List.cons_append, ← hdec], by rw [hlast2, hlast], ?_, hlt⟩
        intro z hz
        rcases List.mem_cons.mp hz with rfl | h2
        · have hymem : y ∈ xs := (mem_ssort y xs).mp hy
          rw [hdec] at hymem
          rcases List.mem_append.mp hymem with h3 | h3
          · exact le_trans hxy (hle y h3)
          · rcases List.mem_cons.mp h3 with rfl | h4
            · exact hxy
            · exact le_trans hxy (le_of_lt (hlt y h4))
        · exact hle z h2

theorem mem_candidatesFor (gc : ℚ → ℚ → ℚ → ℚ → ℚ) (th tf : ℚ)
    (subG : List (ℕ × List Rec)) (oct : List Rec) (idx cnt : ℕ) :
    ((idx, cnt) ∈ candidatesFor gc .toOther th tf subG oct ↔
      ∃ ct, (idx, ct) ∈ subG ∧
        max (headTime ct) (headTime oct) < min (lastTime ct) (lastTime oct) ∧
        cnt = wCount gc th ct oct ∧ tf * (oct.length : ℚ) < (cnt : ℚ)) := by
  simp only [candidatesFor, List.mem_filterMap]
  constructor
  · rintro ⟨p, hp, hpf⟩
    simp only [Option.ite_none_right_eq_some, Option.some.injEq, Prod.mk.injEq] at hpf
    obtain ⟨hA, hB, hidx, hcnt⟩ := hpf
    refine ⟨p.2, ?_, hA, hcnt.symm, ?_⟩
    · rw [← hidx]
      simpa using hp
    · rw [← hcnt]
      exact hB
  · rintro ⟨ct, hct, hA, hcnt, hB⟩
    refine ⟨(idx, ct), hct, ?_⟩
    simp only [Option.ite_none_right_eq_some, Option.some.injEq, Prod.mk.injEq]
    refine ⟨hA, ?_, ?_⟩
    · rw [← hcnt]
      exact hB
    · exact ⟨trivial, hcnt.symm⟩

/-- The `candidatesFor` characterisation under `interpolate_to="self"`: the
interpolation source/target swap, so the threshold is `time_frac` times the
*self* track's sample count. -/
theorem mem_candidatesFor_self (gc : ℚ → ℚ → ℚ → ℚ → ℚ) (th tf : ℚ)
    (subG : List (ℕ × List Rec)) (oct : List Rec) (idx cnt : ℕ) :
    ((idx, cnt) ∈ candidatesFor gc .toSelf th tf subG oct ↔
      ∃ ct, (idx, ct) ∈ subG ∧
        max (headTime oct) (headTime ct) < min (lastTime oct) (lastTime ct) ∧
        cnt = wCount gc th oct ct ∧ tf * (ct.length : ℚ) < (cnt : ℚ)) := by
  simp only [candidatesFor, List.mem_filterMap]
  constructor
  · rintro ⟨p, hp, hpf⟩
    simp only [Option.ite_none_right_eq_some, Option.some.injEq, Prod.mk.injEq] at hpf
    obtain ⟨hA, hB, hidx, hcnt⟩ := hpf
    refine ⟨p.2, ?_, hA, hcnt.symm, ?_⟩
    · rw [← hidx]
      simpa using hp
    · rw [← hcnt]
      exact hB
  · rintro ⟨ct, hct, hA, hcnt, hB⟩
    refine ⟨(idx, ct), hct, ?_⟩
    simp only [Option.ite_none_right_eq_some, Option.some.injEq, Prod.mk.injEq]
    refine ⟨hA, ?_, ?_⟩
    · rw [← hcnt]
      exact hB
    · exact ⟨trivial, hcnt.symm⟩

theorem mem_matchSimple (gc : ℚ → ℚ → ℚ → ℚ → ℚ) (it : InterpTo) (th tf : ℚ)
    (subG otherG : List (ℕ × List Rec)) (a b : ℕ) :
    ((a, b) ∈ matchSimple gc it th tf subG otherG ↔
      ∃ oct, (b, oct) ∈ otherG ∧
        candidatesFor gc it th tf subG oct ≠ [] ∧
        a = ((ssort (candidatesFor gc it th tf subG oct)).getLastD (0, 0)).1) := by
  simp only [matchSimple, List.mem_filterMap]
  constructor
  · rintro ⟨q, hq, hqf⟩
    simp only [Option.ite_none_left_eq_some, Option.some.injEq, Prod.mk.injEq,
      List.isEmpty_iff] at hqf
    obtain ⟨hne, ha2, hb⟩ := hqf
    refine ⟨q.2, ?_, hne, ha2.symm⟩
    rw [← hb]
    simpa using hq
  · rintro ⟨oct, hoct, hne, ha⟩
    refine ⟨(b, oct), hoct, ?_⟩
    simp [List.isEmpty_iff, hne, ha]

/-- **C3 (amended).**  In `match_tracks` with `method="simple"`, a self
track is a candidate for a given other-track iff the two time spans overlap
for a positive duration *and* its count of interpolation-aligned samples
within `thresh_dist` exceeds `time_frac` times the *interpolation-target*
track's sample count — the other track's count when
`interpolate_to="other"` (the default), the self track's count when
`interpolate_to="self"` (the claim as stated omits the positive-overlap
requirement and fixes the threshold to the other track's count); under
either flag, among the candidates for one other-track exactly one pair is
emitted — the candidate whose within-radius count is maximal, ties broken in
favour of the later-enumerated self track (stable-sort-then-take-last). -/
theorem simple_matching (gc : ℚ → ℚ → ℚ → ℚ → ℚ) (th tf : ℚ)
    (subG otherG : List (ℕ × List Rec)) :
    (∀ oct idx cnt, ((idx, cnt) ∈ candidatesFor gc .toOther th tf subG oct ↔
      ∃ ct, (idx, ct) ∈ subG ∧
        max (headTime ct) (headTime oct) < min (lastTime ct) (lastTime oct) ∧
        cnt = wCount gc th ct oct ∧ tf * (oct.length : ℚ) < (cnt : ℚ))) ∧
    (∀ oct idx cnt, ((idx, cnt) ∈ candidatesFor gc .toSelf th tf subG oct ↔
      ∃ ct, (idx, ct) ∈ subG ∧
        max (headTime oct) (headTime ct) < min (lastTime oct) (lastTime ct) ∧
        cnt = wCount gc th oct ct ∧ tf * (ct.length : ℚ) < (cnt : ℚ))) ∧
    (∀ it a b, ((a, b) ∈ matchSimple gc it th tf subG otherG ↔
      ∃ oct, (b, oct) ∈ otherG ∧
        candidatesFor gc it th tf subG oct ≠ [] ∧
        a = ((ssort (candidatesFor gc it th tf subG oct)).getLastD (0, 0)).1)) ∧
    (∀ it oct, candidatesFor gc it th tf subG oct ≠ [] →
      ∃ l1 m l2, candidatesFor gc it th tf subG oct = l1 ++ m :: l2 ∧
        (ssort (candidatesFor gc it th tf subG oct)).getLastD (0, 0) = m ∧
        (∀ y ∈ l1, y.2 ≤ m.2) ∧ (∀ y ∈ l2, y.2 < m.2)) :=
  ⟨fun oct idx cnt => mem_candidatesFor gc th tf subG oct idx cnt,
   fun oct idx cnt => mem_candidatesFor_self gc th tf subG oct idx cnt,
   fun it a b => mem_matchSimple gc it th tf subG otherG a b,
   fun _ _ h => ssort_last_decomp _ h⟩

/-- Counterexample to C3 as stated, in both interpolation directions.
With `interpolate_to="other"`: the other track `trkB` touches the self
track `trkC` only at the single shared boundary time, so there is one
aligned sample within the radius — the within-radius count 1 exceeds
`time_frac` times the other track's sample count (1/2 · 1) — yet the source
emits no pair, because the guard `(e_end - l_start) / HOUR > 0` rejects a
zero-duration overlap before the count is even computed.
With `interpolate_to="self"`: the spans of `trkD` (other, 2 samples) and
`trkE` (self, 4 samples) overlap for a positive duration and the
within-radius count 2 exceeds `time_frac` times the other track's sample
count (1/2 · 2), yet the source emits no pair, because its threshold is
`time_frac` times the *self* track's sample count (1/2 · 4 = 2, not
exceeded). -/
theorem simple_candidacy_counterexample :
    (matchSimple gcEx .toOther 1 (1/2) [(0, trkC)] [(7, trkB)] = [] ∧
     wCount gcEx 1 trkC trkB = 1 ∧
     (1 / 2 : ℚ) * ((trkB.length : ℕ) : ℚ) < ((wCount gcEx 1 trkC trkB : ℕ) : ℚ)) ∧
    (matchSimple gcEx .toSelf 1 (1/2) [(0, trkE)] [(7, trkD)] = [] ∧
     max (headTime trkD) (headTime trkE) < min (lastTime trkD) (lastTime trkE) ∧
     wCount gcEx 1 trkD trkE = 2 ∧
     (1 / 2 : ℚ) * ((trkD.length : ℕ) : ℚ) < ((wCount gcEx 1 trkD trkE : ℕ) : ℚ)) := by
  have hw : wCount gcEx 1 trkC trkB = 1 := by
    norm_num [wCount, distDiff, newDF1, interpPos, interp1, headTime, FILLVAL, gcEx,
      KM2M, trkC, trkB, List.range_succ]
  have hw2 : wCount gcEx 1 trkD trkE = 2 := by
    norm_num [wCount, distDiff, newDF1, interpPos, interp1, headTime, FILLVAL, gcEx,
      KM2M, trkD, trkE, List.range_succ]
  refine ⟨⟨?_, hw, ?_⟩, ?_, ?_, hw2, ?_⟩
  · norm_num [matchSimple, candidatesFor, headTime, lastTime, trkC, trkB]
  · rw [hw]
    norm_num [trkB]
  · have hw2L := hw2
    simp only [trkD, trkE] at hw2L
    have hca : candidatesFor gcEx .toSelf 1 (1/2) [(0, trkE)] trkD = [] := by
      norm_num [candidatesFor, List.filterMap_cons, List.filterMap_nil, hw2L,
        headTime, lastTime, trkD, trkE]
    norm_num [matchSimple, hca]
  · norm_num [headTime, lastTime, trkD, trkE]
  · rw [hw2]
    norm_num [trkD]

/-- Witness for C3: on identical stationary tracks the single candidate
`(0, 2)` wins and the pair `(0, 7)` is emitted; the decomposition certifies
it is the last maximal-count candidate. -/
theorem simple_matching_witness :
    (0, 7) ∈ matchSimple gcEx .toOther 250 (1/2) [(0, trkC)] [(7, trkC)] ∧
    (∃ l1 m l2,
      candidatesFor gcEx .toOther 250 (1/2) [(0, trkC)] trkC = l1 ++ m :: l2 ∧
      (ssort (candidatesFor gcEx .toOther 250 (1/2) [(0, trkC)] trkC)).getLastD (0, 0) = m ∧
      (∀ y ∈ l1, y.2 ≤ m.2) ∧ (∀ y ∈ l2, y.2 < m.2)) := by
  have hc : candidatesFor gcEx .toOther 250 (1/2) [(0, trkC)] trkC = [(0, 2)] := by
    norm_num [candidatesFor, List.filterMap_cons, List.filterMap_nil, wCount, distDiff,
      newDF1, interpPos, interp1, headTime, lastTime, FILLVAL, gcEx, KM2M, trkC,
      List.range_succ]
  constructor
  · refine ((simple_matching gcEx 250 (1/2) [(0, trkC)] [(7, trkC)]).2.2.1 .toOther 0 7).mpr
      ⟨trkC, by simp, by rw [hc]; simp, ?_⟩
    rw [hc]
    rfl
  · exact (simple_matching gcEx 250 (1/2) [(0, trkC)] [(7, trkC)]).2.2.2 .toOther trkC
      (by rw [hc]; simp)

end Octant
